import Mathlib

/-
  Verification development for the spacetime-crawler4py repository.

  Shallow embedding of `src/scraper.py` and `src/analytics.py`.
  Strings are modelled as `List Char` restricted to ASCII text (the
  repository only manipulates ASCII URLs and the claims' inputs are
  ASCII); `Char.toLower` models Python `str.lower` on that fragment.
  Python sets are modelled as duplicate-free lists in some enumeration
  order, Python dicts as insertion-ordered association lists, which is
  exactly how CPython enumerates them.
-/

namespace Crawler

abbrev Str := List Char

/-- Python `needle in hay` prefix step: does `hay` start with `needle`. -/
def strStartsWith : Str → Str → Bool
  | [], _ => true
  | _ :: _, [] => false
  | a :: as, b :: bs => a == b && strStartsWith as bs

/-- Python substring test `needle in hay` for strings. -/
def strContainsSub (needle : Str) : Str → Bool
  | [] => strStartsWith needle []
  | c :: rest => strStartsWith needle (c :: rest) || strContainsSub needle rest

/-- Python `hay.endswith(tail)`. -/
def strEndsWith (hay tail : Str) : Bool :=
  strStartsWith tail.reverse hay.reverse

/-- Python `s.lower()` on ASCII text. -/
def toLowerStr (s : Str) : Str := s.map Char.toLower

/-- Split a string at the first occurrence of `sep` (separator dropped),
    `none` when `sep` does not occur: models `str.split(sep, 1)`. -/
def splitOnce (sep : Char) : Str → Option (Str × Str)
  | [] => none
  | a :: as =>
    if a == sep then some ([], as)
    else
      match splitOnce sep as with
      | none => none
      | some (l, r) => some (a :: l, r)

/-- Characters allowed in a URL scheme, as in `urllib.parse.scheme_chars`. -/
def schemeChar (c : Char) : Bool :=
  c.isAlpha || c.isDigit || c == '+' || c == '-' || c == '.'

/-- Scheme detection of `urllib.parse.urlsplit`: text before the first `:`
    is the scheme when it is nonempty, starts with a letter and consists of
    scheme characters; the scheme is lowercased. -/
def splitScheme (u : Str) : Str × Str :=
  match splitOnce ':' u with
  | none => ([], u)
  | some (sch, rest) =>
    match sch with
    | [] => ([], u)
    | c :: _ =>
      if c.isAlpha && sch.all schemeChar then (toLowerStr sch, rest)
      else ([], u)

/-- A character ending the netloc component (`urllib.parse._splitnetloc`). -/
def netlocEnd (c : Char) : Bool := c == '/' || c == '?' || c == '#'

/-- Netloc detection of `urlsplit`: after a leading `//`, the netloc runs
    to the first `/`, `?` or `#`. -/
def splitNetloc (u : Str) : Str × Str :=
  match u with
  | '/' :: '/' :: rest =>
    (rest.takeWhile (fun c => !netlocEnd c), rest.dropWhile (fun c => !netlocEnd c))
  | _ => ([], u)

structure ParseResult where
  scheme : Str
  netloc : Str
  path : Str
  query : Str
  fragment : Str
deriving DecidableEq

/-- Model of `urllib.parse.urlparse` on the URL shapes the scraper handles:
    scheme (lowercased), netloc after `//`, then fragment split at the first
    `#`, query at the first `?`, remainder is the path. -/
def urlparse (u : Str) : ParseResult :=
  let p1 := splitScheme u
  let p2 := splitNetloc p1.2
  let p3 := match splitOnce '#' p2.2 with
    | none => (p2.2, ([] : Str))
    | some x => x
  let p4 := match splitOnce '?' p3.1 with
    | none => (p3.1, ([] : Str))
    | some x => x
  ⟨p1.1, p2.1, p4.1, p4.2, p3.2⟩

/-- Python `url[url.rfind('/'):]` split used by `_splitparams`: returns
    `(before, lastSegment)` with `before ++ lastSegment = path`, where
    `lastSegment` is the part after the last `/` (the whole string when
    there is no `/`; the `/` itself stays in `before`). -/
def splitAtLastSlash : Str → Str × Str
  | [] => ([], [])
  | c :: rest =>
    if rest.contains '/' then
      let p := splitAtLastSlash rest
      (c :: p.1, p.2)
    else if c == '/' then ([c], rest)
    else ([], c :: rest)

/-- Effect of `_splitparams` followed by `urlunparse`'s params rejoin on a
    path segment: the split at the first `;` is undone unless the params
    part is empty, in which case the bare trailing `;` is dropped. -/
def dropFinalSemi (seg : Str) : Str :=
  match splitOnce ';' seg with
  | none => seg
  | some (l, r) => if r.isEmpty then l else seg

/-- Net effect of `urlparse`'s params split and `urlunparse`'s rejoin on
    the path: identity, except a bare `;` ending the last segment is
    dropped. -/
def dropBareParams (path : Str) : Str :=
  let p := splitAtLastSlash path
  p.1 ++ dropFinalSemi p.2

/-- The `uses_netloc` scheme list of `urllib.parse`. -/
def uses_netloc : List Str :=
  [([] : Str), "ftp".toList, "http".toList, "gopher".toList, "nntp".toList,
   "telnet".toList, "imap".toList, "wais".toList, "file".toList, "mms".toList,
   "https".toList, "shttp".toList, "snews".toList, "prospero".toList,
   "rtsp".toList, "rtsps".toList, "rtspu".toList, "rsync".toList, "svn".toList,
   "svn+ssh".toList, "sftp".toList, "nfs".toList, "git".toList,
   "git+ssh".toList, "ws".toList, "wss".toList]

/-- The `uses_params` scheme list of `urllib.parse`. -/
def uses_params : List Str :=
  [([] : Str), "ftp".toList, "hdl".toList, "prospero".toList, "http".toList,
   "imap".toList, "https".toList, "shttp".toList, "rtsp".toList,
   "rtsps".toList, "rtspu".toList, "sip".toList, "sips".toList, "mms".toList,
   "sftp".toList, "tel".toList]

/-- The `if url and url[:1] != '/': url = '/' + url` step of `urlunsplit`,
    applied to the path before the netloc is prepended. -/
def addLeadSlash (path : Str) : Str :=
  match path with
  | [] => []
  | c :: rest => if c = '/' then c :: rest else '/' :: c :: rest

/-- Model of `urllib.parse.urlunsplit` with an empty fragment: `//` and the
    netloc are emitted when a netloc is present, or when the scheme is a
    netloc-using one and the path does not already start with `//`; the
    scheme is emitted with `:` when non-empty, and the query with `?` only
    when non-empty — so a bare `?` of the input is dropped. -/
def urlunsplitModel (scheme netloc path query : Str) : Str :=
  let url1 :=
    if netloc ≠ [] ∨ (scheme ≠ [] ∧ uses_netloc.contains scheme = true ∧
        strStartsWith "//".toList path = false) then
      '/' :: '/' :: (netloc ++ addLeadSlash path)
    else path
  let url2 := if scheme ≠ [] then scheme ++ ':' :: url1 else url1
  if query ≠ [] then url2 ++ '?' :: query else url2

/-- The re-canonicalized fragment-free form Python's `urldefrag` produces
    in its `'#' in url` branch: `urlunparse` of the `urlparse` components
    with the fragment replaced by the empty string.  The params component
    is split (and rejoined, dropping a bare trailing `;`) only for schemes
    in `uses_params` with a `;` in the path, as `urlparse` does. -/
def canonNoFrag (u : Str) : Str :=
  let p := urlparse u
  let path2 :=
    if uses_params.contains p.scheme = true ∧ p.path.contains ';' = true then
      dropBareParams p.path
    else p.path
  urlunsplitModel p.scheme p.netloc path2 p.query

/-- Model of `urllib.parse.urldefrag` (CPython 3.11): when the URL contains
    `#` it is parsed and re-assembled without the fragment (which lowercases
    the scheme and drops a bare `?` or bare `;`); otherwise it is returned
    unchanged.  The model covers URLs free of tab/CR/LF and leading control
    characters (which `urlsplit` strips) and without IPv6 brackets (which it
    validates); the crawler's URLs contain none of these. -/
def urldefrag (u : Str) : Str :=
  if u.contains '#' then canonNoFrag u else u

/-- The `allowed_domains` list of `is_valid` (scraper.py). -/
def allowed_domains : List Str :=
  [".ics.uci.edu".toList, ".cs.uci.edu".toList,
   ".informatics.uci.edu".toList, ".stat.uci.edu".toList]

/-- The alternatives of the low-value extension regex of `is_valid`, with
    `jpe?g` and `tiff?` expanded; the regex `.*\.(...)$` accepts exactly the
    paths ending in a dot followed by one of these. -/
def low_value_exts : List Str :=
  ["css".toList, "js".toList, "bmp".toList, "gif".toList, "jpeg".toList,
   "jpg".toList, "ico".toList, "png".toList, "tiff".toList, "tif".toList,
   "mid".toList, "mp2".toList, "mp3".toList, "mp4".toList, "wav".toList,
   "avi".toList, "mov".toList, "mpeg".toList, "ram".toList, "m4v".toList,
   "mkv".toList, "ogg".toList, "ogv".toList, "pdf".toList, "ps".toList,
   "eps".toList, "tex".toList, "ppt".toList, "pptx".toList, "doc".toList,
   "docx".toList, "xls".toList, "xlsx".toList, "names".toList, "data".toList,
   "dat".toList, "exe".toList, "bz2".toList, "tar".toList, "msi".toList,
   "bin".toList, "7z".toList, "psd".toList, "dmg".toList, "iso".toList,
   "epub".toList, "dll".toList, "cnf".toList, "tgz".toList, "sha1".toList,
   "thmx".toList, "mso".toList, "arff".toList, "rtf".toList, "jar".toList,
   "csv".toList, "rm".toList, "smil".toList, "wmv".toList, "swf".toList,
   "wma".toList, "zip".toList, "rar".toList, "gz".toList]

/-- Model of `is_valid` (scraper.py:60-106).  The module-level `seen` set is
    passed explicitly.  Checks in source order: scheme, allowed domain
    (hostname lowercased, suffix match or exact match without the leading
    dot), the trap check `url in seen`, then the extension denylist on the
    lowercased path. -/
def is_valid (seen : List Str) (url : Str) : Bool :=
  let parsed := urlparse url
  if !(parsed.scheme == "http".toList || parsed.scheme == "https".toList) then
    false
  else
    let hostname := toLowerStr parsed.netloc
    let is_allowed := allowed_domains.any (fun d =>
      strEndsWith hostname d || hostname == d.drop 1)
    if !is_allowed then false
    else if seen.contains url then false
    else if low_value_exts.any (fun e =>
        strEndsWith (toLowerStr parsed.path) ('.' :: e)) then false
    else true

/-- Character class `[a-z0-9]` of the tokenizer regex. -/
def isTokChar (c : Char) : Bool :=
  ('a' ≤ c && c ≤ 'z') || ('0' ≤ c && c ≤ '9')

/-- Word characters of Python `\b` on ASCII text: `[a-zA-Z0-9_]`. -/
def isWordChar (c : Char) : Bool :=
  isTokChar c || ('A' ≤ c && c ≤ 'Z') || c == '_'

/-- Accumulator pass emitting the maximal runs of characters satisfying `p`
    (the accumulator holds the current run reversed). -/
def runsByGo (p : Char → Bool) : Str → Str → List Str
  | [], acc => if acc.isEmpty then [] else [acc.reverse]
  | c :: rest, acc =>
    if p c then runsByGo p rest (c :: acc)
    else if acc.isEmpty then runsByGo p rest []
    else acc.reverse :: runsByGo p rest []

/-- Maximal runs of characters satisfying `p`, in order. -/
def runsBy (p : Char → Bool) (s : Str) : List Str := runsByGo p s []

/-- Model of `Analytics._tokenize` (analytics.py:84-88):
    `re.findall(r'\b[a-z0-9]+\b', text.lower())`.  A regex match must sit
    between two `\b` boundaries, so it is exactly a maximal run of word
    characters all of which lie in `[a-z0-9]`; a maximal `[a-z0-9]` run
    bordered by another word character (such as `_`) yields no match. -/
def tokenize (text : Str) : List Str :=
  (runsBy isWordChar (toLowerStr text)).filter (fun r => r.all isTokChar)

/-- Maximal runs of ASCII letters/digits of the lowercased text.  Modelled
    from the spec's words ("extracts maximal runs of ASCII letters/digits
    delimited by non-alphanumeric boundary characters"), for comparison
    with `tokenize`. -/
def maximalAlnumRuns (text : Str) : List Str :=
  runsBy isTokChar (toLowerStr text)

/-- Python `set.add` on the duplicate-free-list model of a set. -/
def setInsert (x : Str) (s : List Str) : List Str :=
  if s.contains x then s else s ++ [x]

/-- The dict update `d[w] = d.get(w, 0) + 1` on the association-list model. -/
def dictIncr (w : Str) : List (Str × Nat) → List (Str × Nat)
  | [] => [(w, 1)]
  | (k, v) :: rest => if k == w then (k, v + 1) :: rest else (k, v) :: dictIncr w rest

/-- The dict read `d.get(w, 0)`. -/
def dictGet (w : Str) : List (Str × Nat) → Nat
  | [] => 0
  | (k, v) :: rest => if k == w then v else dictGet w rest

/-- Python `sum(d.values())`. -/
def dictSum (m : List (Str × Nat)) : Nat := (m.map (fun kv => kv.2)).sum

/-- The subdomain update of `add_page`: create the entry with an empty set
    when the hostname is absent, then add the URL to its set. -/
def subAdd (host url : Str) : List (Str × List Str) → List (Str × List Str)
  | [] => [(host, setInsert url [])]
  | (k, v) :: rest =>
    if k == host then (k, setInsert url v) :: rest else (k, v) :: subAdd host url rest

/-- Python `h in subdomains` for the association-list model of the dict. -/
def hasKey (h : Str) (m : List (Str × List Str)) : Bool :=
  m.any (fun kv => kv.1 == h)

structure LongestPage where
  url : Str
  word_count : Nat
deriving DecidableEq

/-- The `data` dict of an `Analytics` object (analytics.py:21-26). -/
structure AState where
  unique_urls : List Str
  longest_page : LongestPage
  word_frequencies : List (Str × Nat)
  subdomains : List (Str × List Str)
deriving DecidableEq

/-- The default structure returned by `Analytics._load` when the store is
    missing or corrupt. -/
def initState : AState := ⟨[], ⟨[], 0⟩, [], []⟩

/-- The hostname used by `add_page`: `urlparse(url).netloc.lower()`. -/
def hostOf (url : Str) : Str := toLowerStr (urlparse url).netloc

def uciStr : Str := "uci.edu".toList

/-- Model of `Analytics.add_page` (analytics.py:40-82): insert the URL into
    the unique set, tokenize, update the longest page on strict inequality,
    bump each token's frequency, and record the URL under its hostname when
    `"uci.edu" in hostname` (substring test). -/
def add_page (s : AState) (url text : Str) : AState :=
  let unique1 := setInsert url s.unique_urls
  let words := tokenize text
  let word_count := words.length
  let longest1 :=
    if s.longest_page.word_count < word_count then LongestPage.mk url word_count
    else s.longest_page
  let freq1 := words.foldl (fun m w => dictIncr w m) s.word_frequencies
  let hostname := hostOf url
  let subs1 :=
    if strContainsSub uciStr hostname then subAdd hostname url s.subdomains
    else s.subdomains
  ⟨unique1, longest1, freq1, subs1⟩

/-- State after a sequence of `add_page` calls starting from the empty
    state; each list entry is `(url, text_content)`. -/
def runPages (pages : List (Str × Str)) : AState :=
  pages.foldl (fun s p => add_page s p.1 p.2) initState

/-- Model of `Analytics.get_top_words` (analytics.py:100-116): drop stop
    words, then `Counter.most_common(n)`, i.e. a stable sort by descending
    count followed by `take n`. -/
def get_top_words (s : AState) (n : Nat) (stop_words : List Str) : List (Str × Nat) :=
  let filtered := s.word_frequencies.filter (fun kv => !stop_words.contains kv.1)
  (filtered.mergeSort (fun a b => decide (b.2 ≤ a.2))).take n

/-- The events touching the module-level `seen` set of scraper.py: a crawl
    callback `extract_next_links(url, resp)` (which runs `seen.add(url)`)
    and a scope-filter call `is_valid(url)` (which only reads `seen`). -/
inductive Ev where
  | cb (url : Str)
  | chk (url : Str)

/-- Effect of one event on the `seen` set. -/
def evStep (seen : List Str) : Ev → List Str
  | Ev.cb u => setInsert u seen
  | Ev.chk _ => seen

/-- The `seen` set after a sequence of events in one process lifetime
    (the set starts empty, scraper.py:11). -/
def runSeen (events : List Ev) : List Str := events.foldl evStep []

/-- The parts of `resp.raw_response` the scraper reads: the response URL,
    the `Content-Type` header (empty when absent), the href targets of the
    page's anchors in document order, and the tag-stripped text, the last
    two supplied by the external HTML parser. -/
structure RawResponse where
  url : Str
  contentType : Str
  hrefs : List Str
  text : Str

/-- The parts of `resp` the scraper reads. -/
structure Response where
  url : Str
  status : Nat
  raw_response : Option RawResponse

/-- The module-level mutable state of scraper.py: the `seen` set and the
    `Analytics` data. -/
structure CrawlState where
  seen : List Str
  analytics : AState
deriving DecidableEq

def htmlType : Str := "text/html".toList

/-- Model of `extract_next_links` (scraper.py:18-58).  `join` is the
    external `urljoin` collaborator.  The requested URL always enters
    `seen`; a non-200 status or missing body yields no links and no
    analytics update, as does a non-HTML content type; otherwise the
    defragged response URL and page text are recorded and the defragged
    joined hrefs are returned in document order. -/
def extract_next_links (join : Str → Str → Str) (st : CrawlState)
    (url : Str) (resp : Response) : List Str × CrawlState :=
  let seen1 := setInsert url st.seen
  match resp.raw_response with
  | none => ([], ⟨seen1, st.analytics⟩)
  | some raw =>
    if resp.status != 200 then ([], ⟨seen1, st.analytics⟩)
    else if !strContainsSub htmlType raw.contentType then ([], ⟨seen1, st.analytics⟩)
    else
      let actual_url := urldefrag resp.url
      let analytics1 := add_page st.analytics actual_url raw.text
      let links := raw.hrefs.map (fun h => urldefrag (join raw.url h))
      (links, ⟨seen1, analytics1⟩)

/-- The JSON values appearing in the analytics store. -/
inductive JVal where
  | jstr (s : Str)
  | jnum (n : Nat)
  | jarr (xs : List JVal)
  | jobj (fields : List (Str × JVal))

def uuKey : Str := "unique_urls".toList
def lpKey : Str := "longest_page".toList
def wfKey : Str := "word_frequencies".toList
def sdKey : Str := "subdomains".toList
def urlKey : Str := "url".toList
def wcKey : Str := "word_count".toList

/-- Model of `Analytics._save` (analytics.py:28-38): the JSON document
    written to the store, with the sets converted to lists;
    `json.dump` serializes these value shapes losslessly. -/
def encodeState (s : AState) : JVal :=
  JVal.jobj
    [(uuKey, JVal.jarr (s.unique_urls.map JVal.jstr)),
     (lpKey, JVal.jobj [(urlKey, JVal.jstr s.longest_page.url),
                        (wcKey, JVal.jnum s.longest_page.word_count)]),
     (wfKey, JVal.jobj (s.word_frequencies.map (fun kv => (kv.1, JVal.jnum kv.2)))),
     (sdKey, JVal.jobj (s.subdomains.map (fun kv => (kv.1, JVal.jarr (kv.2.map JVal.jstr)))))]

/-- Key lookup in a JSON object, as `data["key"]` on the parsed document. -/
def jLookup (key : Str) : List (Str × JVal) → Option JVal
  | [] => none
  | (k, v) :: rest => if k == key then some v else jLookup key rest

def asArr : JVal → Option (List JVal)
  | JVal.jarr xs => some xs
  | _ => none

def asObj : JVal → Option (List (Str × JVal))
  | JVal.jobj fields => some fields
  | _ => none

/-- Read a JSON array of strings back as a URL list. -/
def decStrs : List JVal → Option (List Str)
  | [] => some []
  | JVal.jstr s :: rest => (decStrs rest).map (fun l => s :: l)
  | _ => none

/-- Read a JSON object of numbers back as a word-frequency dict. -/
def decFreqs : List (Str × JVal) → Option (List (Str × Nat))
  | [] => some []
  | (k, JVal.jnum n) :: rest => (decFreqs rest).map (fun l => (k, n) :: l)
  | _ => none

/-- Read a JSON object of string arrays back as the subdomains dict. -/
def decSubs : List (Str × JVal) → Option (List (Str × List Str))
  | [] => some []
  | (k, JVal.jarr xs) :: rest =>
    match decStrs xs with
    | none => none
    | some urls => (decSubs rest).map (fun l => (k, urls) :: l)
  | _ => none

/-- Read the `longest_page` object back. -/
def decLongest (j : JVal) : Option LongestPage :=
  match j with
  | JVal.jobj fields =>
    match jLookup urlKey fields, jLookup wcKey fields with
    | some (JVal.jstr u), some (JVal.jnum n) => some ⟨u, n⟩
    | _, _ => none
  | _ => none

/-- Model of `Analytics._load` (analytics.py:12-26) reading back a parsed
    store document: the loaded `data` dict is accessed through the four
    top-level keys exactly as `add_page` and the read operations use it
    (the loaded lists denote the sets they were saved from). -/
def decodeState (j : JVal) : Option AState := do
  let fields ← asObj j
  let uuj ← jLookup uuKey fields
  let us ← asArr uuj
  let uu ← decStrs us
  let lpj ← jLookup lpKey fields
  let lp ← decLongest lpj
  let wfj ← jLookup wfKey fields
  let wfFields ← asObj wfj
  let wf ← decFreqs wfFields
  let sdj ← jLookup sdKey fields
  let sdFields ← asObj sdj
  let sd ← decSubs sdFields
  pure (AState.mk uu lp wf sd)

theorem mem_setInsert_self (x : Str) (s : List Str) : x ∈ setInsert x s := by
  unfold setInsert
  by_cases h : s.contains x = true
  · simp only [h, if_true]
    simpa using h
  · simp only [h]
    simp

theorem mem_setInsert_of_mem {y : Str} {s : List Str} (x : Str) (h : y ∈ s) :
    y ∈ setInsert x s := by
  unfold setInsert
  split
  · exact h
  · exact List.mem_append_left _ h

theorem is_valid_of_mem_seen {seen : List Str} {url : Str} (h : url ∈ seen) :
    is_valid seen url = false := by
  have hc : seen.contains url = true := by simpa using h
  simp only [is_valid, hc]
  split
  · rfl
  · simp

theorem mem_foldl_evStep {x : Str} : ∀ (events : List Ev) (s : List Str),
    x ∈ s → x ∈ events.foldl evStep s := by
  intro events
  induction events with
  | nil => intro s h; simpa using h
  | cons e rest ih =>
    intro s h
    rw [List.foldl_cons]
    apply ih
    cases e with
    | cb u => exact mem_setInsert_of_mem u h
    | chk u => exact h

/-- C1: the claim that the Trap Detector's check reports a URL eligible at
    most once is false on the code: the scope-filter call `is_valid` reads
    the `seen` set but never inserts into it, so two consecutive checks of
    the same never-crawled in-scope URL both report it eligible. -/
theorem c1_trap_counterexample :
    is_valid (runSeen []) "http://www.ics.uci.edu/".toList = true ∧
    is_valid (runSeen [Ev.chk "http://www.ics.uci.edu/".toList])
      "http://www.ics.uci.edu/".toList = true :=
  ⟨by decide, by decide⟩

/-- C1 (amended): a scope-filter call never modifies the `seen` set; only a
    crawl-callback invocation inserts its requested URL, and once a crawl
    callback on a URL has occurred, every later scope-filter check of that
    URL reports it ineligible. -/
theorem c1_trap_amended (pre post : List Ev) (u : Str) :
    (∀ (s : List Str) (v : Str), evStep s (Ev.chk v) = s) ∧
    is_valid (runSeen (pre ++ Ev.cb u :: post)) u = false := by
  refine ⟨fun s v => rfl, ?_⟩
  apply is_valid_of_mem_seen
  unfold runSeen
  rw [List.foldl_append, List.foldl_cons]
  exact mem_foldl_evStep post _ (mem_setInsert_self u _)

/-- C2: the claim that the scope filter never depends on the seen set is
    false on the code: `is_valid` consults `seen` (scraper.py:91), so the
    same URL is accepted under an empty seen set and rejected once seen. -/
theorem c2_scope_counterexample :
    is_valid ([] : List Str) "http://www.ics.uci.edu/robots".toList = true ∧
    is_valid ["http://www.ics.uci.edu/robots".toList]
      "http://www.ics.uci.edu/robots".toList = false :=
  ⟨by decide, by decide⟩

/-- C2 (amended): `is_valid` depends on the seen set only through
    membership of the checked URL: any two seen sets agreeing on that one
    membership yield the same verdict, and the remaining checks (scheme,
    allowed domain, extension denylist) are pure in the configuration and
    the URL. -/
theorem c2_scope_amended (s1 s2 : List Str) (u : Str)
    (h : s1.contains u = s2.contains u) :
    is_valid s1 u = is_valid s2 u := by
  simp only [is_valid, h]

/-- Witness for the amended C2 at concrete inputs. -/
theorem c2_scope_amended_witness :
    (([] : List Str).contains "http://www.ics.uci.edu/robots".toList
      = (["http://elsewhere.org/".toList] : List Str).contains
          "http://www.ics.uci.edu/robots".toList) ∧
    is_valid ([] : List Str) "http://www.ics.uci.edu/robots".toList
      = is_valid ["http://elsewhere.org/".toList]
          "http://www.ics.uci.edu/robots".toList :=
  ⟨by decide, c2_scope_amended _ _ _ (by decide)⟩

theorem toNat_ofNat_small {n : Nat} (h : n < 55296) : (Char.ofNat n).toNat = n := by
  unfold Char.ofNat
  rw [dif_pos (Or.inl h)]
  show (Char.ofNatAux n (Or.inl h)).toNat = n
  unfold Char.ofNatAux Char.toNat
  simp [UInt32.toNat]

theorem toLower_ne_hash {c : Char} (hc : c ≠ '#') : Char.toLower c ≠ '#' := by
  unfold Char.toLower
  by_cases h : c.toNat ≥ 65 ∧ c.toNat ≤ 90
  · rw [if_pos h]
    intro habs
    have h1 : (Char.ofNat (c.toNat + 32)).toNat = c.toNat + 32 :=
      toNat_ofNat_small (by omega)
    rw [habs] at h1
    have h2 : ('#' : Char).toNat = 35 := by decide
    omega
  · rw [if_neg h]
    exact hc

theorem splitOnce_cons (c a : Char) (as : Str) :
    splitOnce c (a :: as) =
      if (a == c) = true then some ([], as)
      else
        match splitOnce c as with
        | none => none
        | some (l, r) => some (a :: l, r) := rfl

theorem splitOnce_eq_none_iff (c : Char) : ∀ s : Str, splitOnce c s = none ↔ c ∉ s := by
  intro s
  induction s with
  | nil => simp [splitOnce]
  | cons a as ih =>
    unfold splitOnce
    by_cases ha : (a == c) = true
    · rw [if_pos ha]
      have hac : a = c := by simpa using ha
      subst hac
      simp
    · rw [if_neg ha]
      have hca : ¬ c = a := fun h => ha (by simp [h])
      cases h : splitOnce c as with
      | none =>
        simp only [List.mem_cons]
        constructor
        · intro _ hor
          rcases hor with h1 | h1
          · exact hca h1
          · exact (ih.mp h) h1
        · intro _
          trivial
      | some p =>
        have hmem : c ∈ as := by
          by_contra hnot
          rw [ih.mpr hnot] at h
          cases h
        simp [List.mem_cons, hmem]

theorem splitOnce_eq_some (c : Char) :
    ∀ (s l r : Str), splitOnce c s = some (l, r) → c ∉ l ∧ s = l ++ c :: r := by
  intro s
  induction s with
  | nil => intro l r h; cases h
  | cons a as ih =>
    intro l r h
    unfold splitOnce at h
    by_cases ha : (a == c) = true
    · rw [if_pos ha] at h
      have hac : a = c := by simpa using ha
      obtain ⟨hl, hr⟩ := Prod.mk.injEq _ _ _ _ ▸ Option.some.inj h
      subst hac hl hr
      simp
    · rw [if_neg ha] at h
      cases h2 : splitOnce c as with
      | none => rw [h2] at h; cases h
      | some p =>
        obtain ⟨l2, r2⟩ := p
        rw [h2] at h
        obtain ⟨hl, hr⟩ := Prod.mk.injEq _ _ _ _ ▸ Option.some.inj h
        obtain ⟨hnot, heq⟩ := ih l2 r2 h2
        subst hl hr
        constructor
        · intro hmem
          rcases List.mem_cons.mp hmem with h1 | h1
          · exact ha (by simp [h1])
          · exact hnot h1
        · rw [List.cons_append, ← heq]

theorem splitOnce_append_some (c : Char) :
    ∀ (w z l r : Str), splitOnce c w = some (l, r) →
      splitOnce c (w ++ z) = some (l, r ++ z) := by
  intro w
  induction w with
  | nil => intro z l r h; cases h
  | cons a as ih =>
    intro z l r h
    rw [splitOnce_cons] at h
    rw [List.cons_append, splitOnce_cons]
    by_cases ha : (a == c) = true
    · rw [if_pos ha] at h ⊢
      obtain ⟨hl, hr⟩ := Prod.mk.injEq _ _ _ _ ▸ Option.some.inj h
      subst hl hr
      rfl
    · rw [if_neg ha] at h ⊢
      cases h2 : splitOnce c as with
      | none => rw [h2] at h; cases h
      | some p =>
        obtain ⟨l2, r2⟩ := p
        rw [h2] at h
        obtain ⟨hl, hr⟩ := Prod.mk.injEq _ _ _ _ ▸ Option.some.inj h
        subst hl hr
        rw [ih z l2 r2 h2]

theorem splitOnce_append_none (c : Char) :
    ∀ (w z : Str), splitOnce c w = none →
      splitOnce c (w ++ z) = (splitOnce c z).map (fun p => (w ++ p.1, p.2)) := by
  intro w
  induction w with
  | nil =>
    intro z _
    cases h : splitOnce c z with
    | none => simp [h]
    | some p => simp [h]
  | cons a as ih =>
    intro z h
    rw [splitOnce_cons] at h
    rw [List.cons_append, splitOnce_cons]
    by_cases ha : (a == c) = true
    · rw [if_pos ha] at h
      cases h
    · rw [if_neg ha] at h ⊢
      have hnone : splitOnce c as = none := by
        cases h2 : splitOnce c as with
        | none => rfl
        | some p => rw [h2] at h; cases h
      rw [ih z hnone]
      cases h2 : splitOnce c z with
      | none => simp [h2]
      | some p => simp [h2]

theorem splitOnce_hash_append {w : Str} (hw : '#' ∉ w) (r : Str) :
    splitOnce '#' (w ++ '#' :: r) = some (w, r) := by
  rw [splitOnce_append_none '#' w ('#' :: r) ((splitOnce_eq_none_iff '#' w).mpr hw)]
  have h1 : splitOnce '#' ('#' :: r) = some ([], r) := by
    unfold splitOnce
    rw [if_pos (by decide)]
  rw [h1]
  simp

theorem runsByGo_sound (p : Char → Bool) :
    ∀ (s acc : Str), (∀ c ∈ acc, p c = true) →
      ∀ r ∈ runsByGo p s acc, r ≠ [] ∧ r.all p = true := by
  intro s
  induction s with
  | nil =>
    intro acc hacc r hr
    unfold runsByGo at hr
    split at hr
    · simp at hr
    · next hne =>
      rw [List.mem_singleton] at hr
      subst hr
      constructor
      · simp only [ne_eq, List.reverse_eq_nil_iff]
        intro h
        rw [h] at hne
        simp at hne
      · rw [List.all_eq_true]
        intro c hc
        exact hacc c (List.mem_reverse.mp hc)
  | cons c rest ih =>
    intro acc hacc r hr
    unfold runsByGo at hr
    split at hr
    · next hp =>
      refine ih (c :: acc) ?_ r hr
      intro d hd
      rcases List.mem_cons.mp hd with h | h
      · subst h; exact hp
      · exact hacc d h
    · split at hr
      · exact ih [] (by simp) r hr
      · next hne =>
        rcases List.mem_cons.mp hr with h | h
        · subst h
          constructor
          · simp only [ne_eq, List.reverse_eq_nil_iff]
            intro h2
            rw [h2] at hne
            simp at hne
          · rw [List.all_eq_true]
            intro d hd
            exact hacc d (List.mem_reverse.mp hd)
        · exact ih [] (by simp) r h

theorem runsByGo_congr (p q : Char → Bool) :
    ∀ (s acc : Str), (∀ c ∈ s, p c = q c) → runsByGo p s acc = runsByGo q s acc := by
  intro s
  induction s with
  | nil => intro acc _; rfl
  | cons c rest ih =>
    intro acc h
    have hc : p c = q c := h c (by simp)
    have hrest : ∀ d ∈ rest, p d = q d := fun d hd => h d (List.mem_cons_of_mem _ hd)
    unfold runsByGo
    rw [hc]
    by_cases hq : q c = true
    · rw [if_pos hq, if_pos hq]
      exact ih (c :: acc) hrest
    · rw [if_neg hq, if_neg hq]
      by_cases hacc : acc.isEmpty = true
      · rw [if_pos hacc, if_pos hacc]
        exact ih [] hrest
      · rw [if_neg hacc, if_neg hacc, ih [] hrest]

theorem wordChar_of_tokChar {c : Char} (h : isTokChar c = true) : isWordChar c = true := by
  simp [isWordChar, h]

theorem wordChar_eq_tokChar_of_clean {c : Char}
    (h : (!isWordChar c || isTokChar c) = true) : isWordChar c = isTokChar c := by
  cases ht : isTokChar c
  · rw [ht] at h
    simp at h
    rw [h]
  · exact wordChar_of_tokChar ht

/-- C3: the claim that tokenization returns exactly the maximal
    alphanumeric runs is false on the code: the regex `\b[a-z0-9]+\b`
    requires word boundaries, so a run adjacent to another word character
    (such as an underscore) yields no token at all — on input "a_b" the
    maximal alphanumeric runs are "a" and "b" but the tokenizer returns
    nothing. -/
theorem c3_tokenize_counterexample :
    tokenize "a_b".toList = [] ∧
    maximalAlnumRuns "a_b".toList = ["a".toList, "b".toList] :=
  ⟨by decide, by decide⟩

/-- C3 (amended): every token is a nonempty run of lowercase ASCII
    letters/digits containing no boundary character, and on text whose
    lowercased form contains no word character outside `[a-z0-9]` (in
    particular, no underscore) the tokens are exactly the maximal
    alphanumeric runs of the lowercased text, in order. -/
theorem c3_tokenize_amended (text : Str) :
    (∀ t ∈ tokenize text, t ≠ [] ∧ t.all isTokChar = true) ∧
    ((toLowerStr text).all (fun c => !isWordChar c || isTokChar c) = true →
      tokenize text = maximalAlnumRuns text) := by
  constructor
  · intro t ht
    have hmem := List.mem_filter.mp ht
    refine ⟨?_, hmem.2⟩
    exact (runsByGo_sound isWordChar (toLowerStr text) [] (by simp) t hmem.1).1
  · intro hclean
    unfold tokenize maximalAlnumRuns runsBy
    rw [List.all_eq_true] at hclean
    rw [runsByGo_congr isWordChar isTokChar _ []
      (fun c hc => wordChar_eq_tokChar_of_clean (hclean c hc))]
    apply List.filter_eq_self.mpr
    intro r hr
    exact (runsByGo_sound isTokChar (toLowerStr text) [] (by simp) r hr).2

/-- Witness for the amended C3 at concrete inputs. -/
theorem c3_tokenize_amended_witness :
    "cat".toList ∈ tokenize "Cat-dog!".toList ∧
    ("cat".toList ≠ [] ∧ "cat".toList.all isTokChar = true) ∧
    (toLowerStr "Cat-dog!".toList).all (fun c => !isWordChar c || isTokChar c) = true ∧
    tokenize "Cat-dog!".toList = maximalAlnumRuns "Cat-dog!".toList :=
  ⟨by decide, (c3_tokenize_amended ("Cat-dog!".toList)).1 ("cat".toList) (by decide),
   by decide, (c3_tokenize_amended ("Cat-dog!".toList)).2 (by decide)⟩

theorem splitScheme_append (w r : Str) :
    splitScheme (w ++ '#' :: r) = ((splitScheme w).1, (splitScheme w).2 ++ '#' :: r) := by
  unfold splitScheme
  cases h : splitOnce ':' w with
  | none =>
    rw [splitOnce_append_none ':' w ('#' :: r) h]
    cases h2 : splitOnce ':' r with
    | none =>
      have h3 : splitOnce ':' ('#' :: r) = none := by
        rw [splitOnce_cons, if_neg (by decide), h2]
      rw [h3]
      simp
    | some p =>
      obtain ⟨l2, r2⟩ := p
      have h3 : splitOnce ':' ('#' :: r) = some ('#' :: l2, r2) := by
        rw [splitOnce_cons, if_neg (by decide), h2]
      rw [h3]
      cases w with
      | nil => rfl
      | cons a w2 =>
        have hall : ((a :: w2) ++ '#' :: l2).all schemeChar = false := by
          rw [List.all_eq_false]
          exact ⟨'#', by simp, by decide⟩
        rw [List.cons_append] at hall ⊢
        simp [hall]
  | some p =>
    obtain ⟨sch, rest⟩ := p
    rw [splitOnce_append_some ':' w ('#' :: r) sch rest h]
    cases sch with
    | nil => rfl
    | cons a sch2 =>
      by_cases hv : (a.isAlpha && (a :: sch2).all schemeChar) = true
      · simp only []
        rw [if_pos hv, if_pos hv]
      · have hcond : ¬(a.isAlpha = true ∧ schemeChar a = true ∧
            ∀ x ∈ sch2, schemeChar x = true) := by
          rintro ⟨x1, x2, x3⟩
          apply hv
          rw [Bool.and_eq_true_iff]
          refine ⟨x1, List.all_eq_true.mpr ?_⟩
          intro c hc
          rcases List.mem_cons.mp hc with hm | hm
          · rw [hm]; exact x2
          · exact x3 c hm
        simp [hcond]

theorem takeWhile_hash_append (p : Char → Bool) (hp : p '#' = false) :
    ∀ (x r : Str), (x ++ '#' :: r).takeWhile p = x.takeWhile p := by
  intro x r
  induction x with
  | nil => simp [List.takeWhile_cons, hp]
  | cons a as ih =>
    rw [List.cons_append, List.takeWhile_cons, List.takeWhile_cons]
    by_cases ha : p a = true
    · rw [if_pos ha, if_pos ha, ih]
    · rw [if_neg ha, if_neg ha]

theorem dropWhile_hash_append (p : Char → Bool) (hp : p '#' = false) :
    ∀ (x r : Str), (x ++ '#' :: r).dropWhile p = x.dropWhile p ++ '#' :: r := by
  intro x r
  induction x with
  | nil => simp [List.dropWhile_cons, hp]
  | cons a as ih =>
    rw [List.cons_append, List.dropWhile_cons, List.dropWhile_cons]
    by_cases ha : p a = true
    · rw [if_pos ha, if_pos ha, ih]
    · rw [if_neg ha, if_neg ha, List.cons_append]

theorem splitNetloc_slash2 (t : Str) :
    splitNetloc ('/' :: '/' :: t) =
      (t.takeWhile (fun c => !netlocEnd c), t.dropWhile (fun c => !netlocEnd c)) := rfl

theorem splitNetloc_of_no_slash2 (u : Str) (h : ∀ t, u ≠ '/' :: '/' :: t) :
    splitNetloc u = ([], u) := by
  unfold splitNetloc
  split
  · exact absurd rfl (h _)
  · rfl

theorem splitNetloc_append (b r : Str) :
    splitNetloc (b ++ '#' :: r) = ((splitNetloc b).1, (splitNetloc b).2 ++ '#' :: r) := by
  match b with
  | [] =>
    rw [List.nil_append,
      splitNetloc_of_no_slash2 ('#' :: r) (by intro t heq; simp at heq),
      splitNetloc_of_no_slash2 [] (by intro t heq; simp at heq)]
    rfl
  | [c] =>
    rw [List.cons_append, List.nil_append,
      splitNetloc_of_no_slash2 (c :: '#' :: r) (by intro t heq; simp at heq),
      splitNetloc_of_no_slash2 [c] (by intro t heq; simp at heq)]
    rfl
  | c1 :: c2 :: t =>
    by_cases h1 : c1 = '/'
    · by_cases h2 : c2 = '/'
      · subst h1 h2
        rw [List.cons_append, List.cons_append, splitNetloc_slash2, splitNetloc_slash2,
          takeWhile_hash_append (fun c => !netlocEnd c) (by decide) t r,
          dropWhile_hash_append (fun c => !netlocEnd c) (by decide) t r]
      · rw [List.cons_append, List.cons_append,
          splitNetloc_of_no_slash2 (c1 :: c2 :: (t ++ '#' :: r))
            (by intro s heq; simp at heq; exact h2 heq.2.1),
          splitNetloc_of_no_slash2 (c1 :: c2 :: t)
            (by intro s heq; simp at heq; exact h2 heq.2.1)]
        simp
    · rw [List.cons_append, List.cons_append,
        splitNetloc_of_no_slash2 (c1 :: c2 :: (t ++ '#' :: r))
          (by intro s heq; simp at heq; exact h1 heq.1),
        splitNetloc_of_no_slash2 (c1 :: c2 :: t)
          (by intro s heq; simp at heq; exact h1 heq.1)]
      simp

theorem splitScheme_snd_mem {x : Char} {w : Str} (h : x ∈ (splitScheme w).2) : x ∈ w := by
  unfold splitScheme at h
  cases hs : splitOnce ':' w with
  | none => rw [hs] at h; exact h
  | some p =>
    obtain ⟨sch, rest⟩ := p
    rw [hs] at h
    obtain ⟨_, heq⟩ := splitOnce_eq_some ':' w sch rest hs
    cases sch with
    | nil => exact h
    | cons a sch2 =>
      simp only [] at h
      by_cases hv : (a.isAlpha && (a :: sch2).all schemeChar) = true
      · rw [if_pos hv] at h
        rw [heq]
        exact List.mem_append_right _ (List.mem_cons_of_mem _ h)
      · rw [if_neg hv] at h
        exact h

theorem splitNetloc_snd_mem {x : Char} {b : Str} (h : x ∈ (splitNetloc b).2) : x ∈ b := by
  match b with
  | [] =>
    rw [splitNetloc_of_no_slash2 [] (by intro t heq; simp at heq)] at h
    exact h
  | [c] =>
    rw [splitNetloc_of_no_slash2 [c] (by intro t heq; simp at heq)] at h
    exact h
  | c1 :: c2 :: t =>
    by_cases h1 : c1 = '/'
    · by_cases h2 : c2 = '/'
      · subst h1 h2
        rw [splitNetloc_slash2] at h
        exact List.mem_cons_of_mem _ (List.mem_cons_of_mem _ (List.dropWhile_subset _ h))
      · rw [splitNetloc_of_no_slash2 (c1 :: c2 :: t)
            (by intro s heq; simp at heq; exact h2 heq.2.1)] at h
        exact h
    · rw [splitNetloc_of_no_slash2 (c1 :: c2 :: t)
          (by intro s heq; simp at heq; exact h1 heq.1)] at h
      exact h

theorem urlparse_append_hash {w : Str} (hw : '#' ∉ w) (r : Str) :
    (urlparse (w ++ '#' :: r)).scheme = (urlparse w).scheme ∧
    (urlparse (w ++ '#' :: r)).netloc = (urlparse w).netloc ∧
    (urlparse (w ++ '#' :: r)).path = (urlparse w).path ∧
    (urlparse (w ++ '#' :: r)).query = (urlparse w).query := by
  have hs := splitScheme_append w r
  have hb : ∀ x ∈ (splitScheme w).2, x ∈ w := fun x hx => splitScheme_snd_mem hx
  have hn := splitNetloc_append (splitScheme w).2 r
  have hd : '#' ∉ (splitNetloc (splitScheme w).2).2 :=
    fun hx => hw (hb _ (splitNetloc_snd_mem hx))
  have h3 := splitOnce_hash_append hd r
  have h3w : splitOnce '#' ((splitNetloc (splitScheme w).2).2) = none :=
    (splitOnce_eq_none_iff '#' _).mpr hd
  simp only [urlparse, hs, hn, h3, h3w]
  exact ⟨trivial, trivial, trivial, trivial⟩

theorem canonNoFrag_append {w : Str} (hw : '#' ∉ w) (r : Str) :
    canonNoFrag (w ++ '#' :: r) = canonNoFrag w := by
  obtain ⟨h1, h2, h3, h4⟩ := urlparse_append_hash hw r
  simp only [canonNoFrag]
  rw [h1, h2, h3, h4]

theorem takeWhile_hash_not_mem (u : Str) : '#' ∉ u.takeWhile (fun c => c != '#') := by
  intro h
  have := List.mem_takeWhile_imp h
  simp at this

theorem dropWhile_hash_shape :
    ∀ u : Str, u.dropWhile (fun c => c != '#') = [] ∨
      ∃ d, u.dropWhile (fun c => c != '#') = '#' :: d := by
  intro u
  induction u with
  | nil => exact Or.inl rfl
  | cons a as ih =>
    rw [List.dropWhile_cons]
    by_cases ha : (a != '#') = true
    · rw [if_pos ha]
      exact ih
    · rw [if_neg ha]
      have : a = '#' := by simpa using ha
      exact Or.inr ⟨as, by rw [this]⟩

theorem urldefrag_append_canon (u f : Str) :
    urldefrag (u ++ '#' :: f) = canonNoFrag (u.takeWhile (fun c => c != '#')) := by
  unfold urldefrag
  rw [if_pos (by simp)]
  have hdecomp := List.takeWhile_append_dropWhile (fun c => c != '#') u
  rcases dropWhile_hash_shape u with h0 | ⟨d, hd⟩
  · rw [h0, List.append_nil] at hdecomp
    conv_lhs => rw [← hdecomp]
    exact canonNoFrag_append (takeWhile_hash_not_mem u) f
  · have hu : u = u.takeWhile (fun c => c != '#') ++ '#' :: d := by
      conv_lhs => rw [← hdecomp]
      rw [hd]
    calc canonNoFrag (u ++ '#' :: f)
        = canonNoFrag (u.takeWhile (fun c => c != '#') ++ '#' :: (d ++ '#' :: f)) := by
          conv_lhs => rw [hu]
          simp [List.append_assoc]
      _ = canonNoFrag (u.takeWhile (fun c => c != '#')) :=
          canonNoFrag_append (takeWhile_hash_not_mem u) _

theorem urldefrag_hash_canon {u : Str} (hc : u.contains '#' = true) :
    urldefrag u = canonNoFrag (u.takeWhile (fun c => c != '#')) := by
  unfold urldefrag
  rw [if_pos hc]
  have hdecomp := List.takeWhile_append_dropWhile (fun c => c != '#') u
  rcases dropWhile_hash_shape u with h0 | ⟨d, hd⟩
  · exfalso
    apply takeWhile_hash_not_mem u
    rw [h0, List.append_nil] at hdecomp
    rw [hdecomp]
    simpa using hc
  · have hu : u = u.takeWhile (fun c => c != '#') ++ '#' :: d := by
      conv_lhs => rw [← hdecomp]
      rw [hd]
    calc canonNoFrag u
        = canonNoFrag (u.takeWhile (fun c => c != '#') ++ '#' :: d) := by
          conv_lhs => rw [hu]
      _ = canonNoFrag (u.takeWhile (fun c => c != '#')) :=
          canonNoFrag_append (takeWhile_hash_not_mem u) _

theorem schemeChar_ne_hash {c : Char} (h : schemeChar c = true) : c ≠ '#' := by
  intro heq
  rw [heq] at h
  exact absurd h (by decide)

theorem splitScheme_fst_no_hash (w : Str) : '#' ∉ (splitScheme w).1 := by
  unfold splitScheme
  cases hs : splitOnce ':' w with
  | none => simp
  | some p =>
    obtain ⟨sch, rest⟩ := p
    cases sch with
    | nil => simp
    | cons a sch2 =>
      simp only []
      by_cases hv : (a.isAlpha && (a :: sch2).all schemeChar) = true
      · rw [if_pos hv]
        intro hmem
        obtain ⟨c, hc, hlow⟩ := List.mem_map.mp hmem
        have hsc : schemeChar c = true :=
          List.all_eq_true.mp (Bool.and_eq_true_iff.mp hv).2 c hc
        exact toLower_ne_hash (schemeChar_ne_hash hsc) hlow
      · rw [if_neg hv]
        simp

theorem splitNetloc_fst_no_hash (b : Str) : '#' ∉ (splitNetloc b).1 := by
  match b with
  | [] =>
    rw [splitNetloc_of_no_slash2 [] (by intro t heq; simp at heq)]
    simp
  | [c] =>
    rw [splitNetloc_of_no_slash2 [c] (by intro t heq; simp at heq)]
    simp
  | c1 :: c2 :: t =>
    by_cases h1 : c1 = '/'
    · by_cases h2 : c2 = '/'
      · subst h1 h2
        rw [splitNetloc_slash2]
        intro h
        have := List.mem_takeWhile_imp h
        simp [netlocEnd] at this
      · rw [splitNetloc_of_no_slash2 (c1 :: c2 :: t)
            (by intro s heq; simp at heq; exact h2 heq.2.1)]
        simp
    · rw [splitNetloc_of_no_slash2 (c1 :: c2 :: t)
          (by intro s heq; simp at heq; exact h1 heq.1)]
      simp

theorem splitOnce_parts_not_mem {c q : Char} {s : Str} (h : c ∉ s) :
    c ∉ (match splitOnce q s with
          | none => (s, ([] : Str))
          | some x => x).1 ∧
    c ∉ (match splitOnce q s with
          | none => (s, ([] : Str))
          | some x => x).2 := by
  cases hq : splitOnce q s with
  | none => exact ⟨h, by simp⟩
  | some p =>
    obtain ⟨l, r⟩ := p
    obtain ⟨_, heq⟩ := splitOnce_eq_some q s l r hq
    constructor
    · intro hmem
      exact h (by rw [heq]; exact List.mem_append_left _ hmem)
    · intro hmem
      exact h (by rw [heq]; exact List.mem_append_right _ (List.mem_cons_of_mem _ hmem))

theorem urlparse_no_hash (u : Str) :
    '#' ∉ (urlparse u).scheme ∧ '#' ∉ (urlparse u).netloc ∧
    '#' ∉ (urlparse u).path ∧ '#' ∉ (urlparse u).query := by
  refine ⟨splitScheme_fst_no_hash u, splitNetloc_fst_no_hash _, ?_, ?_⟩ <;>
  · have h31 : '#' ∉ (match splitOnce '#' ((splitNetloc (splitScheme u).2).2) with
        | none => ((splitNetloc (splitScheme u).2).2, ([] : Str))
        | some x => x).1 := by
      cases h3 : splitOnce '#' ((splitNetloc (splitScheme u).2).2) with
      | none => exact (splitOnce_eq_none_iff '#' _).mp h3
      | some p =>
        obtain ⟨l, r⟩ := p
        exact (splitOnce_eq_some '#' _ l r h3).1
    have h4 := splitOnce_parts_not_mem (q := '?') h31
    first
    | exact h4.1
    | exact h4.2

theorem splitAtLastSlash_eq : ∀ p : Str, (splitAtLastSlash p).1 ++ (splitAtLastSlash p).2 = p := by
  intro p
  induction p with
  | nil => rfl
  | cons c rest ih =>
    unfold splitAtLastSlash
    by_cases h : rest.contains '/' = true
    · rw [if_pos h]
      simp only [List.cons_append]
      rw [ih]
    · rw [if_neg h]
      by_cases hc : (c == '/') = true
      · rw [if_pos hc]
        rfl
      · rw [if_neg hc]
        rfl

theorem dropFinalSemi_mem {x : Char} {seg : Str} (h : x ∈ dropFinalSemi seg) : x ∈ seg := by
  unfold dropFinalSemi at h
  cases hs : splitOnce ';' seg with
  | none => rw [hs] at h; exact h
  | some p =>
    obtain ⟨l, r⟩ := p
    rw [hs] at h
    simp only [] at h
    by_cases hr : r.isEmpty = true
    · rw [if_pos hr] at h
      obtain ⟨_, heq⟩ := splitOnce_eq_some ';' seg l r hs
      rw [heq]
      exact List.mem_append_left _ h
    · rw [if_neg hr] at h
      exact h

theorem dropBareParams_mem {x : Char} {p : Str} (h : x ∈ dropBareParams p) : x ∈ p := by
  unfold dropBareParams at h
  rw [← splitAtLastSlash_eq p]
  rcases List.mem_append.mp h with h1 | h1
  · exact List.mem_append_left _ h1
  · exact List.mem_append_right _ (dropFinalSemi_mem h1)

theorem addLeadSlash_no_hash {p : Str} (hp : '#' ∉ p) : '#' ∉ addLeadSlash p := by
  unfold addLeadSlash
  cases p with
  | nil => simp
  | cons c rest =>
    simp only []
    by_cases hc : c = '/'
    · rw [if_pos hc]
      exact hp
    · rw [if_neg hc]
      intro hmem
      rcases List.mem_cons.mp hmem with h | h
      · exact absurd h (by decide)
      · exact hp h

theorem urlunsplit_no_hash {s n p q : Str} (hs : '#' ∉ s) (hn : '#' ∉ n)
    (hp : '#' ∉ p) (hq : '#' ∉ q) : '#' ∉ urlunsplitModel s n p q := by
  have hurl1 : '#' ∉ (if n ≠ [] ∨ (s ≠ [] ∧ uses_netloc.contains s = true ∧
        strStartsWith "//".toList p = false) then
      '/' :: '/' :: (n ++ addLeadSlash p)
    else p) := by
    split
    · intro hmem
      rcases List.mem_cons.mp hmem with h | h
      · exact absurd h (by decide)
      rcases List.mem_cons.mp h with h2 | h2
      · exact absurd h2 (by decide)
      rcases List.mem_append.mp h2 with h3 | h3
      · exact hn h3
      · exact addLeadSlash_no_hash hp h3
    · exact hp
  have hurl2 : '#' ∉ (if s ≠ [] then
      s ++ ':' :: (if n ≠ [] ∨ (s ≠ [] ∧ uses_netloc.contains s = true ∧
          strStartsWith "//".toList p = false) then
        '/' :: '/' :: (n ++ addLeadSlash p)
      else p)
    else (if n ≠ [] ∨ (s ≠ [] ∧ uses_netloc.contains s = true ∧
          strStartsWith "//".toList p = false) then
        '/' :: '/' :: (n ++ addLeadSlash p)
      else p)) := by
    split
    · intro hmem
      rcases List.mem_append.mp hmem with h | h
      · exact hs h
      rcases List.mem_cons.mp h with h2 | h2
      · exact absurd h2 (by decide)
      · exact hurl1 h2
    · exact hurl1
  simp only [urlunsplitModel]
  split
  · intro hmem
    rcases List.mem_append.mp hmem with h | h
    · exact hurl2 h
    rcases List.mem_cons.mp h with h2 | h2
    · exact absurd h2 (by decide)
    · exact hq h2
  · exact hurl2

theorem canonNoFrag_no_hash (u : Str) : '#' ∉ canonNoFrag u := by
  obtain ⟨h1, h2, h3, h4⟩ := urlparse_no_hash u
  have hpath2 : '#' ∉ (if uses_params.contains (urlparse u).scheme = true ∧
      (urlparse u).path.contains ';' = true then
      dropBareParams (urlparse u).path
    else (urlparse u).path) := by
    split
    · exact fun hm => h3 (dropBareParams_mem hm)
    · exact h3
  exact urlunsplit_no_hash h1 h2 hpath2 h4

/-- C4: the claim is false on the code in two of its three parts.
    Fragment-insensitivity fails: Python's `urldefrag` re-canonicalizes
    only when a `#` is present (its parse/unparse pass lowercases the
    scheme), so `"HTTP://host.ics.uci.edu/a" + "#f"` normalizes to
    `"http://host.ics.uci.edu/a"` while the fragment-free URL is returned
    unchanged.  Host-case identification also fails: two fragment-free URLs
    differing only in host letter-case are both returned unchanged and stay
    distinct. -/
theorem c4_normalize_counterexample :
    urldefrag ("HTTP://host.ics.uci.edu/a".toList ++ '#' :: "f".toList)
      ≠ urldefrag "HTTP://host.ics.uci.edu/a".toList ∧
    urldefrag "http://HOST.ics.uci.edu/a".toList = "http://HOST.ics.uci.edu/a".toList ∧
    urldefrag "http://host.ics.uci.edu/a".toList = "http://host.ics.uci.edu/a".toList ∧
    urldefrag "http://HOST.ics.uci.edu/a".toList
      ≠ urldefrag "http://host.ics.uci.edu/a".toList :=
  ⟨by decide, by decide, by decide, by decide⟩

/-- C4 (amended): normalization (`urldefrag`) is idempotent; any two
    fragment variants of the same URL normalize to the same value
    (`normalize(u + "#" + f1) = normalize(u + "#" + f2)`, in particular
    equal to `normalize(u + "#")`); and `normalize(u + "#" + f) =
    normalize(u)` holds whenever `u` itself already contains a `#`.  But
    appending a fragment to a fragment-free URL can change the normal form
    (the parse/unparse pass then lowercases the scheme and drops a bare `?`
    or `;`), and host letter-case is never folded, so URLs differing only
    in host case normalize to distinct values. -/
theorem c4_normalize_amended (u f1 f2 : Str) :
    urldefrag (urldefrag u) = urldefrag u ∧
    urldefrag (u ++ '#' :: f1) = urldefrag (u ++ '#' :: f2) ∧
    (u.contains '#' = true → urldefrag (u ++ '#' :: f1) = urldefrag u) := by
  refine ⟨?_, ?_, ?_⟩
  · by_cases hc : u.contains '#' = true
    · rw [urldefrag_hash_canon hc]
      have h2 : (canonNoFrag (u.takeWhile (fun c => c != '#'))).contains '#' = false := by
        cases hcc : (canonNoFrag (u.takeWhile (fun c => c != '#'))).contains '#' with
        | false => rfl
        | true =>
          exact absurd (by simpa using hcc)
            (canonNoFrag_no_hash (u.takeWhile (fun c => c != '#')))
      have hfix : urldefrag (canonNoFrag (u.takeWhile (fun c => c != '#')))
          = canonNoFrag (u.takeWhile (fun c => c != '#')) := by
        unfold urldefrag
        rw [h2]
        simp
      exact hfix
    · have hcf : u.contains '#' = false := by
        cases hcc : u.contains '#' with
        | false => rfl
        | true => exact absurd hcc hc
      have hu : urldefrag u = u := by
        unfold urldefrag
        rw [hcf]
        simp
      rw [hu]
      exact hu
  · rw [urldefrag_append_canon, urldefrag_append_canon]
  · intro hc
    rw [urldefrag_append_canon, urldefrag_hash_canon hc]

/-- Witness for the amended C4 at a concrete URL already containing a
    fragment separator. -/
theorem c4_normalize_amended_witness :
    "http://a.ics.uci.edu/x#y".toList.contains '#' = true ∧
    urldefrag ("http://a.ics.uci.edu/x#y".toList ++ '#' :: "z".toList)
      = urldefrag "http://a.ics.uci.edu/x#y".toList :=
  ⟨by decide,
   (c4_normalize_amended "http://a.ics.uci.edu/x#y".toList "z".toList []).2.2
     (by decide)⟩

theorem hasKey_cons (h k : Str) (v : List Str) (rest : List (Str × List Str)) :
    hasKey h ((k, v) :: rest) = ((k == h) || hasKey h rest) := rfl

theorem hasKey_subAdd (h host url : Str) :
    ∀ m, hasKey h (subAdd host url m) = ((host == h) || hasKey h m) := by
  intro m
  induction m with
  | nil => rfl
  | cons kv rest ih =>
    obtain ⟨k, v⟩ := kv
    unfold subAdd
    by_cases hk : (k == host) = true
    · rw [if_pos hk]
      have hkh : k = host := by simpa using hk
      subst hkh
      rw [hasKey_cons, hasKey_cons]
      cases hh : (k == h) <;> simp [hh]
    · rw [if_neg hk, hasKey_cons, hasKey_cons, ih]
      cases (k == h) <;> cases (host == h) <;> simp

theorem hasKey_add_page (h : Str) (s : AState) (url text : Str) :
    hasKey h (add_page s url text).subdomains = true ↔
      ((hostOf url = h ∧ strContainsSub uciStr h = true) ∨
        hasKey h s.subdomains = true) := by
  simp only [add_page]
  by_cases hc : strContainsSub uciStr (hostOf url) = true
  · rw [if_pos hc, hasKey_subAdd]
    simp only [Bool.or_eq_true]
    constructor
    · intro hor
      rcases hor with h1 | h1
      · have heq : hostOf url = h := by simpa using h1
        exact Or.inl ⟨heq, heq ▸ hc⟩
      · exact Or.inr h1
    · intro hor
      rcases hor with ⟨heq, _⟩ | hk
      · exact Or.inl (by simpa using heq)
      · exact Or.inr hk
  · rw [if_neg hc]
    constructor
    · intro hk
      exact Or.inr hk
    · rintro (⟨heq, hsub⟩ | hk)
      · exact absurd (heq ▸ hsub) hc
      · exact hk

theorem hasKey_foldPages (h : Str) :
    ∀ (pages : List (Str × Str)) (s : AState),
      hasKey h ((pages.foldl (fun st p => add_page st p.1 p.2) s).subdomains) = true ↔
        (hasKey h s.subdomains = true ∨
          ∃ p ∈ pages, hostOf p.1 = h ∧ strContainsSub uciStr h = true) := by
  intro pages
  induction pages with
  | nil => intro s; simp
  | cons p ps ih =>
    intro s
    rw [List.foldl_cons, ih (add_page s p.1 p.2), hasKey_add_page]
    simp only [List.mem_cons]
    constructor
    · rintro ((⟨hh, hs⟩ | hk) | ⟨q, hq, hqq⟩)
      · exact Or.inr ⟨p, Or.inl rfl, hh, hs⟩
      · exact Or.inl hk
      · exact Or.inr ⟨q, Or.inr hq, hqq⟩
    · rintro (hk | ⟨q, (hq | hq), hqq⟩)
      · exact Or.inl (Or.inr hk)
      · subst hq
        exact Or.inl (Or.inl hqq)
      · exact Or.inr ⟨q, hq, hqq⟩

/-- C5: the claim is false on the code: `add_page` records a hostname when
    `"uci.edu" in hostname` — a substring test, not a suffix test
    (analytics.py:74) — so a page on `uci.edu.evil.com`, whose hostname
    does not end with the root-domain suffix, still adds a subdomains
    entry. -/
theorem c5_subdomains_counterexample :
    (runPages [("http://uci.edu.evil.com/x".toList, [])]).subdomains.map
        (fun kv => kv.1) = ["uci.edu.evil.com".toList] ∧
    strEndsWith "uci.edu.evil.com".toList "uci.edu".toList = false :=
  ⟨by decide, by decide⟩

/-- C5 (amended): after any sequence of `add_page` calls from the empty
    state, the subdomains mapping has an entry for hostname `h` if and only
    if some recorded page's hostname equals `h` and `h` contains the
    configured root domain "uci.edu" as a substring (not: as a suffix). -/
theorem c5_subdomains_amended (pages : List (Str × Str)) (h : Str) :
    hasKey h (runPages pages).subdomains = true ↔
      ∃ p ∈ pages, hostOf p.1 = h ∧ strContainsSub uciStr h = true := by
  unfold runPages
  rw [hasKey_foldPages]
  simp [initState, hasKey]

/-- Witness for the amended C5 at concrete inputs. -/
theorem c5_subdomains_amended_witness :
    (hostOf "http://a.ics.uci.edu/x".toList = "a.ics.uci.edu".toList ∧
      strContainsSub uciStr "a.ics.uci.edu".toList = true) ∧
    hasKey "a.ics.uci.edu".toList
      (runPages [("http://a.ics.uci.edu/x".toList, "cat".toList)]).subdomains = true :=
  ⟨⟨by decide, by decide⟩,
   (c5_subdomains_amended [("http://a.ics.uci.edu/x".toList, "cat".toList)]
       "a.ics.uci.edu".toList).mpr
     ⟨("http://a.ics.uci.edu/x".toList, "cat".toList),
      List.mem_singleton.mpr rfl, by decide, by decide⟩⟩

theorem add_page_word_count (s : AState) (u t : Str) :
    (add_page s u t).longest_page.word_count
      = max s.longest_page.word_count (tokenize t).length := by
  simp only [add_page]
  by_cases hlt : s.longest_page.word_count < (tokenize t).length
  · rw [if_pos hlt]
    exact (Nat.max_eq_right (Nat.le_of_lt hlt)).symm
  · rw [if_neg hlt]
    exact (Nat.max_eq_left (Nat.le_of_not_lt hlt)).symm

theorem foldPages_word_count :
    ∀ (pages : List (Str × Str)) (s : AState),
      (pages.foldl (fun st p => add_page st p.1 p.2) s).longest_page.word_count
        = pages.foldl (fun m p => max m (tokenize p.2).length)
            s.longest_page.word_count := by
  intro pages
  induction pages with
  | nil => intro s; rfl
  | cons p ps ih =>
    intro s
    rw [List.foldl_cons, List.foldl_cons, ih, add_page_word_count]

/-- C6: across any sequence of `add_page` calls from the empty state, the
    longest-page word count equals the maximum token count over all pages
    added so far, is non-decreasing under a further `add_page`, and is
    replaced only on strict inequality, so a tying page leaves the
    longest-page record (hence its URL) unchanged. -/
theorem c6_longest_page (pages : List (Str × Str)) (url text : Str) :
    (runPages pages).longest_page.word_count
        = (pages.map (fun p => (tokenize p.2).length)).foldl max 0 ∧
    (runPages pages).longest_page.word_count
        ≤ (add_page (runPages pages) url text).longest_page.word_count ∧
    ((tokenize text).length ≤ (runPages pages).longest_page.word_count →
      (add_page (runPages pages) url text).longest_page
        = (runPages pages).longest_page) := by
  refine ⟨?_, ?_, ?_⟩
  · unfold runPages
    rw [foldPages_word_count, List.foldl_map]
    rfl
  · rw [add_page_word_count]
    exact Nat.le_max_left _ _
  · intro hle
    simp only [add_page]
    rw [if_neg (Nat.not_lt.mpr hle)]

/-- Witness for C6 at concrete inputs: a tying-or-smaller page keeps the
    earlier longest-page record. -/
theorem c6_longest_page_witness :
    (tokenize "x y".toList).length
        ≤ (runPages [("http://a.ics.uci.edu/1".toList,
            "cat dog cat".toList)]).longest_page.word_count ∧
    (add_page (runPages [("http://a.ics.uci.edu/1".toList, "cat dog cat".toList)])
        "http://a.ics.uci.edu/2".toList "x y".toList).longest_page
      = (runPages [("http://a.ics.uci.edu/1".toList,
          "cat dog cat".toList)]).longest_page :=
  ⟨by decide,
   (c6_longest_page [("http://a.ics.uci.edu/1".toList, "cat dog cat".toList)]
       "http://a.ics.uci.edu/2".toList "x y".toList).2.2 (by decide)⟩

theorem dictSum_dictIncr (w : Str) : ∀ m, dictSum (dictIncr w m) = dictSum m + 1 := by
  intro m
  induction m with
  | nil => rfl
  | cons kv rest ih =>
    obtain ⟨k, v⟩ := kv
    unfold dictIncr
    by_cases hk : (k == w) = true
    · rw [if_pos hk]
      simp [dictSum]
      omega
    · rw [if_neg hk]
      simp [dictSum] at ih ⊢
      omega

theorem dictSum_addWords : ∀ (ws : List Str) (m : List (Str × Nat)),
    dictSum (ws.foldl (fun acc w => dictIncr w acc) m) = dictSum m + ws.length := by
  intro ws
  induction ws with
  | nil => intro m; simp
  | cons w rest ih =>
    intro m
    rw [List.foldl_cons, ih, dictSum_dictIncr, List.length_cons]
    omega

theorem dictGet_dictIncr (w v : Str) : ∀ m,
    dictGet w (dictIncr v m) = dictGet w m + (if v == w then 1 else 0) := by
  intro m
  induction m with
  | nil => cases hv : (v == w) <;> simp [dictIncr, dictGet, hv]
  | cons kv rest ih =>
    obtain ⟨k, x⟩ := kv
    unfold dictIncr
    by_cases hk : (k == v) = true
    · rw [if_pos hk]
      have hkv : k = v := by simpa using hk
      subst hkv
      unfold dictGet
      by_cases hw : (k == w) = true
      · rw [if_pos hw, if_pos hw, if_pos hw]
      · rw [if_neg hw, if_neg hw, if_neg hw]
        simp
    · rw [if_neg hk]
      unfold dictGet
      by_cases hw : (k == w) = true
      · rw [if_pos hw, if_pos hw]
        have hkw : k = w := by simpa using hw
        cases hvw : (v == w)
        · simp
        · exfalso
          apply hk
          have hvweq : v = w := by simpa using hvw
          simp [hkw, hvweq]
      · rw [if_neg hw, if_neg hw]
        exact ih

theorem dictGet_addWords (w : Str) : ∀ (ws : List Str) (m : List (Str × Nat)),
    dictGet w (ws.foldl (fun acc v => dictIncr v acc) m)
      = dictGet w m + ws.count w := by
  intro ws
  induction ws with
  | nil => intro m; simp
  | cons v rest ih =>
    intro m
    rw [List.foldl_cons, ih, dictGet_dictIncr, List.count_cons]
    cases hv : (v == w)
    · simp [hv]
    · simp [hv]
      omega

theorem add_page_wf (s : AState) (u t : Str) :
    (add_page s u t).word_frequencies
      = (tokenize t).foldl (fun acc w => dictIncr w acc) s.word_frequencies := rfl

theorem dictSum_foldPages : ∀ (pages : List (Str × Str)) (s : AState),
    dictSum ((pages.foldl (fun st p => add_page st p.1 p.2) s).word_frequencies)
      = dictSum s.word_frequencies
          + (pages.map (fun p => (tokenize p.2).length)).sum := by
  intro pages
  induction pages with
  | nil => intro s; simp
  | cons p ps ih =>
    intro s
    rw [List.foldl_cons, ih, add_page_wf, dictSum_addWords, List.map_cons,
      List.sum_cons]
    omega

theorem dictGet_foldPages (w : Str) : ∀ (pages : List (Str × Str)) (s : AState),
    dictGet w ((pages.foldl (fun st p => add_page st p.1 p.2) s).word_frequencies)
      = dictGet w s.word_frequencies
          + (pages.map (fun p => (tokenize p.2).count w)).sum := by
  intro pages
  induction pages with
  | nil => intro s; simp
  | cons p ps ih =>
    intro s
    rw [List.foldl_cons, ih, add_page_wf, dictGet_addWords, List.map_cons,
      List.sum_cons]
    omega

/-- C7: after any sequence of `add_page` calls from the empty state, the
    sum of all word-frequency counts equals the total number of tokens
    extracted across the added pages, and each word's count equals its
    total number of occurrences across those pages. -/
theorem c7_word_frequencies (pages : List (Str × Str)) (w : Str) :
    dictSum (runPages pages).word_frequencies
        = (pages.map (fun p => (tokenize p.2).length)).sum ∧
    dictGet w (runPages pages).word_frequencies
        = (pages.map (fun p => (tokenize p.2).count w)).sum := by
  constructor
  · unfold runPages
    rw [dictSum_foldPages]
    simp [initState, dictSum]
  · unfold runPages
    rw [dictGet_foldPages]
    simp [initState, dictGet]

theorem jLookup_enc1 (a b c d : JVal) :
    jLookup uuKey [(uuKey, a), (lpKey, b), (wfKey, c), (sdKey, d)] = some a := rfl

theorem jLookup_enc2 (a b c d : JVal) :
    jLookup lpKey [(uuKey, a), (lpKey, b), (wfKey, c), (sdKey, d)] = some b := rfl

theorem jLookup_enc3 (a b c d : JVal) :
    jLookup wfKey [(uuKey, a), (lpKey, b), (wfKey, c), (sdKey, d)] = some c := rfl

theorem jLookup_enc4 (a b c d : JVal) :
    jLookup sdKey [(uuKey, a), (lpKey, b), (wfKey, c), (sdKey, d)] = some d := rfl

theorem decLongest_enc (u : Str) (n : Nat) :
    decLongest (JVal.jobj [(urlKey, JVal.jstr u), (wcKey, JVal.jnum n)])
      = some ⟨u, n⟩ := rfl

theorem decStrs_map : ∀ l : List Str, decStrs (l.map JVal.jstr) = some l := by
  intro l
  induction l with
  | nil => rfl
  | cons s rest ih => simp [decStrs, ih]

theorem decFreqs_map :
    ∀ l : List (Str × Nat),
      decFreqs (l.map (fun kv => (kv.1, JVal.jnum kv.2))) = some l := by
  intro l
  induction l with
  | nil => rfl
  | cons kv rest ih =>
    obtain ⟨k, n⟩ := kv
    simp [decFreqs, ih]

theorem decSubs_map :
    ∀ l : List (Str × List Str),
      decSubs (l.map (fun kv => (kv.1, JVal.jarr (kv.2.map JVal.jstr))))
        = some l := by
  intro l
  induction l with
  | nil => rfl
  | cons kv rest ih =>
    obtain ⟨k, urls⟩ := kv
    simp [decSubs, decStrs_map, ih]

/-- C8: saving the analytics state and loading it back is lossless — the
    store document produced by `_save` decodes, through the key accesses
    `_load`'s callers perform, to exactly the state that was saved (so in
    particular the abstract unique-page set, longest-page record,
    word-frequency map and subdomain map round-trip). -/
theorem c8_round_trip (s : AState) : decodeState (encodeState s) = some s := by
  obtain ⟨uu, ⟨lu, lwc⟩, wf, sd⟩ := s
  simp only [decodeState, encodeState, asObj, asArr, jLookup_enc1, jLookup_enc2,
    jLookup_enc3, jLookup_enc4, decLongest_enc, decStrs_map, decFreqs_map,
    decSubs_map, Option.bind_eq_bind, Option.some_bind, Option.pure_def]

/-- C9: on a non-200 status, a missing body, or a non-HTML content type,
    the crawl callback returns no candidate links and leaves the analytics
    state untouched, yet still registers the requested URL in the seen
    set. -/
theorem c9_error_handling (join : Str → Str → Str) (st : CrawlState)
    (url : Str) (resp : Response)
    (h : resp.status ≠ 200 ∨ resp.raw_response = none ∨
      (∃ raw, resp.raw_response = some raw ∧
        strContainsSub htmlType raw.contentType = false)) :
    (extract_next_links join st url resp).1 = [] ∧
    (extract_next_links join st url resp).2.analytics = st.analytics ∧
    url ∈ (extract_next_links join st url resp).2.seen := by
  obtain ⟨rurl, rstatus, rraw⟩ := resp
  cases rraw with
  | none => exact ⟨rfl, rfl, mem_setInsert_self url st.seen⟩
  | some raw =>
    have hred : extract_next_links join st url ⟨rurl, rstatus, some raw⟩
        = ([], ⟨setInsert url st.seen, st.analytics⟩) := by
      rcases h with hs | hn | ⟨raw2, heq, hct⟩
      · have hb : (rstatus != 200) = true := by simpa using hs
        simp [extract_next_links, hb]
      · simp at hn
      · have hr2 : raw2 = raw := (Option.some.inj heq).symm
        subst hr2
        by_cases hs2 : (rstatus != 200) = true
        · simp [extract_next_links, hs2]
        · have hb : (rstatus != 200) = false := by simpa using hs2
          simp [extract_next_links, hb, hct]
    rw [hred]
    exact ⟨rfl, rfl, mem_setInsert_self url st.seen⟩

/-- Witness for C9 at a concrete 404 response. -/
theorem c9_error_handling_witness :
    ((404 : Nat) ≠ 200 ∨
      (Response.mk "http://a.ics.uci.edu/".toList 404 none).raw_response = none ∨
      (∃ raw, (Response.mk "http://a.ics.uci.edu/".toList 404 none).raw_response
          = some raw ∧ strContainsSub htmlType raw.contentType = false)) ∧
    (extract_next_links (fun _ hr => hr) ⟨[], initState⟩
        "http://a.ics.uci.edu/".toList
        (Response.mk "http://a.ics.uci.edu/".toList 404 none)).1 = [] ∧
    (extract_next_links (fun _ hr => hr) ⟨[], initState⟩
        "http://a.ics.uci.edu/".toList
        (Response.mk "http://a.ics.uci.edu/".toList 404 none)).2.analytics
      = initState ∧
    "http://a.ics.uci.edu/".toList ∈
      (extract_next_links (fun _ hr => hr) ⟨[], initState⟩
        "http://a.ics.uci.edu/".toList
        (Response.mk "http://a.ics.uci.edu/".toList 404 none)).2.seen :=
  ⟨Or.inl (by decide),
   c9_error_handling (fun _ hr => hr) ⟨[], initState⟩
     "http://a.ics.uci.edu/".toList
     (Response.mk "http://a.ics.uci.edu/".toList 404 none)
     (Or.inl (by decide))⟩

theorem dictIncr_pos (w : Str) :
    ∀ m, (∀ kv ∈ m, 1 ≤ kv.2) → ∀ kv ∈ dictIncr w m, 1 ≤ kv.2 := by
  intro m
  induction m with
  | nil =>
    intro _ kv hkv
    simp [dictIncr] at hkv
    simp [hkv]
  | cons p rest ih =>
    obtain ⟨k, v⟩ := p
    intro hm kv hkv
    unfold dictIncr at hkv
    by_cases hk : (k == w) = true
    · rw [if_pos hk] at hkv
      rcases List.mem_cons.mp hkv with h1 | h1
      · simp [h1]
      · exact hm kv (List.mem_cons_of_mem _ h1)
    · rw [if_neg hk] at hkv
      rcases List.mem_cons.mp hkv with h1 | h1
      · rw [h1]
        exact hm (k, v) (by simp)
      · exact ih (fun q hq => hm q (List.mem_cons_of_mem _ hq)) kv h1

theorem addWords_pos :
    ∀ (ws : List Str) (m : List (Str × Nat)),
      (∀ kv ∈ m, 1 ≤ kv.2) →
      ∀ kv ∈ ws.foldl (fun acc w => dictIncr w acc) m, 1 ≤ kv.2 := by
  intro ws
  induction ws with
  | nil => intro m hm; simpa using hm
  | cons w rest ih =>
    intro m hm
    rw [List.foldl_cons]
    exact ih _ (dictIncr_pos w m hm)

theorem foldPages_pos :
    ∀ (pages : List (Str × Str)) (s : AState),
      (∀ kv ∈ s.word_frequencies, 1 ≤ kv.2) →
      ∀ kv ∈ (pages.foldl (fun st p => add_page st p.1 p.2) s).word_frequencies,
        1 ≤ kv.2 := by
  intro pages
  induction pages with
  | nil => intro s hs; simpa using hs
  | cons p ps ih =>
    intro s hs
    rw [List.foldl_cons]
    apply ih
    rw [add_page_wf]
    exact addWords_pos _ _ hs

/-- C10: after any sequence of `add_page` calls from the empty state, every
    count stored in the word-frequency map is at least 1, and consequently
    `get_top_words` never returns an entry with a zero count. -/
theorem c10_positive_counts (pages : List (Str × Str)) (kv : Str × Nat)
    (n : Nat) (stop_words : List Str) :
    (kv ∈ (runPages pages).word_frequencies → 1 ≤ kv.2) ∧
    (kv ∈ get_top_words (runPages pages) n stop_words → 1 ≤ kv.2) := by
  have hwf : ∀ q ∈ (runPages pages).word_frequencies, 1 ≤ q.2 := by
    apply foldPages_pos pages initState
    simp [initState]
  constructor
  · intro h
    exact hwf kv h
  · intro h
    unfold get_top_words at h
    have h1 := List.take_subset _ _ h
    have h2 := List.mem_mergeSort.mp h1
    exact hwf kv (List.mem_filter.mp h2).1

/-- Witness for C10 at concrete inputs. -/
theorem c10_positive_counts_witness :
    ("cat".toList, 2) ∈ get_top_words
        (runPages [("http://a.ics.uci.edu/x".toList, "cat cat".toList)]) 1 [] ∧
    1 ≤ ("cat".toList, 2).2 := by
  have hm : ("cat".toList, 2) ∈ get_top_words
      (runPages [("http://a.ics.uci.edu/x".toList, "cat cat".toList)]) 1 [] := by
    have h : (runPages [("http://a.ics.uci.edu/x".toList,
        "cat cat".toList)]).word_frequencies = [("cat".toList, 2)] := by decide
    simp [get_top_words, h, List.filter, List.mergeSort_singleton]
  exact ⟨hm,
    (c10_positive_counts [("http://a.ics.uci.edu/x".toList, "cat cat".toList)]
      ("cat".toList, 2) 1 []).2 hm⟩

end Crawler
